import Mathlib

/-!
Verification of the opencode-memory-plugin against its specification.

The definitions below are a shallow embedding of the TypeScript
source (src/inject.ts, src/capture.ts, src/todo-sync.ts, src/buffer.ts).
JavaScript numbers that only ever hold small integers are modelled as `Nat`;
the 32-bit wrap-around of the content hash is made explicit over `Int`;
`String.length` / `String.take` model JS `.length` / `.slice` (identical on
ASCII/BMP text, which is all the claims exercise); fallible remote calls are
modelled by passing the `Option`-valued store response as an argument.
-/

namespace MemoryPlugin

/-! ### JS string primitives

JS `slice`, `trim` and `toLowerCase` are modelled over the character list
(`String.data`) rather than through the Lean byte-position `Substring`
machinery, which the kernel cannot feasibly evaluate; on the BMP/ASCII text
the claims exercise, these agree with the JS operations. -/

/-- JS `s.slice(0, n)`. -/
def strTake (s : String) (n : Nat) : String := String.mk (s.data.take n)

/-- JS `s.trim()` (whitespace at both ends removed). -/
def strTrim (s : String) : String :=
  String.mk (((s.data.dropWhile Char.isWhitespace).reverse.dropWhile
    Char.isWhitespace).reverse)

/-- JS `s.toLowerCase()` (ASCII case mapping). -/
def strToLower (s : String) : String := String.mk (s.data.map Char.toLower)

/-! ### Budget computation (src/inject.ts, computeBudget) -/

/-- Constant `DEFAULT_BUDGET_CHARS` — fallback when model info unavailable. -/
def DEFAULT_BUDGET_CHARS : Nat := 3000

/-- Constant `MIN_BUDGET_CHARS`. -/
def MIN_BUDGET_CHARS : Nat := 600

/-- Constant `MAX_BUDGET_CHARS`. -/
def MAX_BUDGET_CHARS : Nat := 8000

/-- The rounding `Math.round(ctx * 0.025 * 4)`: over exact arithmetic the product is
`ctx / 10`, and `Math.round` rounds half up, i.e. `⌊(ctx + 5) / 10⌋`.
(The JS double computation agrees with exact arithmetic here: for
`ctx ≡ 5 (mod 10)` the value `ctx * 0.025 = (2k+1)/8` is exactly
representable, so no double-rounding anomaly can flip `Math.round`.) -/
def roundBudgetChars (ctx : Nat) : Nat := (ctx + 5) / 10

/-- Function `computeBudget(model?)` from src/inject.ts.  `model.limit.context` is
modelled as `Option Nat`; the JS truthiness test `!model?.limit?.context`
treats both an absent and a zero context as "unavailable". -/
def computeBudget : Option Nat → Nat
  | none => DEFAULT_BUDGET_CHARS
  | some ctx =>
    if ctx = 0 then DEFAULT_BUDGET_CHARS
    else max MIN_BUDGET_CHARS (min MAX_BUDGET_CHARS (roundBudgetChars ctx))

/-- The decay factor from `buildInjection`:
`Math.max(0.35, 1.0 - Math.log10(messageCount) * 0.35)`. -/
noncomputable def decayFactor (messageCount : Nat) : ℝ :=
  max 0.35 (1.0 - Real.logb 10 messageCount * 0.35)

/-- The budget actually used by `buildInjection`: the raw budget, decayed
once `messageCount > 10` (`messageCount && messageCount > 10` in JS; a
missing count is modelled as `0`). -/
noncomputable def decayedBudget (baseBudget : Nat) (messageCount : Nat) : ℤ :=
  if 10 < messageCount then round ((baseBudget : ℝ) * decayFactor messageCount)
  else (baseBudget : ℤ)

/-- The reference definition from the claim,  of the raw budget, written over exact
rationals: `clamp(modelContextTokens * 0.025 * 4, 600, 8000)` with
`Math.round` semantics (round half up). -/
noncomputable def rawBudgetRef (ctx : Nat) : ℤ :=
  max 600 (min 8000 (round ((ctx : ℝ) * 0.025 * 4)))

/-! ### Tiered sections and assembly (src/inject.ts) -/

/-- A `TieredSection` (tier 1..4, label, content). -/
structure TieredSection where
  tier : Nat
  label : String
  content : String
deriving DecidableEq, Repr

/-- The block string built for a section: `` `${section.label}\n${section.content}` ``. -/
def blockOf (s : TieredSection) : String := s.label ++ "\n" ++ s.content

/-- Stable insertion of a section into an already tier-sorted list: the new
(earlier-in-input) section goes before strictly larger tiers and after
equal ones coming earlier, matching the stable JS `Array.prototype.sort`. -/
def insertByTier (s : TieredSection) : List TieredSection → List TieredSection
  | [] => [s]
  | t :: ts => if s.tier ≤ t.tier then s :: t :: ts else t :: insertByTier s ts

/-- The sort `[...sections].sort((a, b) => a.tier - b.tier)` — stable, by tier. -/
def sortByTier : List TieredSection → List TieredSection
  | [] => []
  | s :: ss => insertByTier s (sortByTier ss)

/-- The loop body of `assembleSections`, producing the list of pushed blocks.
A section is appended while `block.length + 2 ≤ remaining`; at the first
non-fitting section, a tier-1 section with more than 100 chars remaining is
truncated (`block.slice(0, remaining - 30) + "\n[...truncated]"`) and the
loop breaks; otherwise the loop just breaks. -/
def assembleGo : List TieredSection → Nat → List String
  | [], _ => []
  | s :: rest, remaining =>
    let block := blockOf s
    if block.length + 2 > remaining then
      if s.tier = 1 ∧ 100 < remaining then
        [strTake block (remaining - 30) ++ "\n[...truncated]"]
      else []
    else block :: assembleGo rest (remaining - (block.length + 2))

/-- The blocks assembled by `assembleSections(sections, budgetChars)`. -/
def assembleBlocks (sections : List TieredSection) (budgetChars : Nat) : List String :=
  assembleGo (sortByTier sections) budgetChars

/-- Function `assembleSections` itself: the assembled blocks joined with `"\n\n"`. -/
def assembleSections (sections : List TieredSection) (budgetChars : Nat) : String :=
  String.intercalate "\n\n" (assembleBlocks sections budgetChars)

/-- The cost a block contributes to the budget: its length plus the 2
chars accounted for the separator. -/
def blockCost (s : TieredSection) : Nat := (blockOf s).length + 2

/-- Total budget cost of a list of sections. -/
def costOf (l : List TieredSection) : Nat := (l.map blockCost).sum

/-! ### Bootstrap response model and buildInjection (src/inject.ts, src/types.ts) -/

/-- The fields of a `Memory` that the injection engine reads. -/
structure MemoryRec where
  type : String
  content : String
deriving DecidableEq, Repr

/-- A `CrossProjectMemory`. -/
structure CrossProjectMemoryRec where
  origin_project : Option String
  memory : MemoryRec
deriving DecidableEq, Repr

/-- A recent episode (only its `summary` is read). -/
structure EpisodeRec where
  summary : String
deriving DecidableEq, Repr

/-- The working-state record.  In TS this is `Record<string, unknown>`;
`formatStateCompact` reads exactly the keys modelled here (`metadata` is
collapsed to its only read key, `captured_at`). -/
structure StateRec where
  objective : Option String
  progress : Option String
  next_steps : Option (List String)
  captured_at : Option String
deriving DecidableEq, Repr

/-- The test `Object.keys(state).length > 0` for the modelled record. -/
def StateRec.hasKeys (st : StateRec) : Bool :=
  st.objective.isSome || st.progress.isSome || st.next_steps.isSome || st.captured_at.isSome

/-- Record `BootstrapResponse` (src/types.ts): every field is optional. -/
structure BootstrapResponse where
  state : Option StateRec
  memories : Option (List MemoryRec)
  cross_project : Option (List CrossProjectMemoryRec)
  recent_episodes : Option (List EpisodeRec)
  constraints : Option (List MemoryRec)
  failed_approaches : Option (List MemoryRec)
deriving DecidableEq, Repr

/-- Function `formatMemoryCompact`. -/
def formatMemoryCompact (mem : MemoryRec) : String :=
  "- [" ++ mem.type ++ "] " ++ mem.content

/-- Function `formatStateCompact`: JS truthiness makes an empty string behave like a
missing key; `next_steps?.length` requires a non-empty list. -/
def formatStateCompact (state : StateRec) : String :=
  let lines : List String :=
    (match state.objective with
      | some o => if o ≠ "" then ["Objective: " ++ o] else []
      | none => []) ++
    (match state.progress with
      | some p => if p ≠ "" then ["Progress: " ++ p] else []
      | none => []) ++
    (match state.next_steps with
      | some ns => if ns ≠ [] then ["Next: " ++ String.intercalate "; " ns] else []
      | none => []) ++
    (match state.captured_at with
      | some c => if c ≠ "" then ["Last active: " ++ c] else []
      | none => [])
  String.intercalate "\n" lines

/-- One line of the cross-project section. -/
def formatCrossProject (cp : CrossProjectMemoryRec) : String :=
  let origin := match cp.origin_project with
    | some op => if op ≠ "" then " (from: " ++ op ++ ")" else " (global)"
    | none => " (global)"
  "- [" ++ cp.memory.type ++ "]" ++ origin ++ " " ++ cp.memory.content

/-- Function `buildTieredSections(data)` from src/inject.ts. -/
def buildTieredSections (data : BootstrapResponse) : List TieredSection :=
  (match data.state with
    | some st =>
      if st.hasKeys then
        let text := formatStateCompact st
        if text.length > 10 then [⟨1, "## Last Session State", text⟩] else []
      else []
    | none => []) ++
  (match data.constraints with
    | some cs =>
      if cs ≠ [] then
        [⟨1, "## Constraints", String.intercalate "\n" (cs.map formatMemoryCompact)⟩]
      else []
    | none => []) ++
  (match data.failed_approaches with
    | some fs =>
      if fs ≠ [] then
        [⟨2, "## Recent Failures (avoid repeating)",
          String.intercalate "\n" (fs.map formatMemoryCompact)⟩]
      else []
    | none => []) ++
  (let keyMemories := (data.memories.getD []).filter
      (fun m => !(m.type = "failure" ∨ m.type = "constraint"))
   if keyMemories ≠ [] then
     [⟨3, "## Key Memories", String.intercalate "\n" (keyMemories.map formatMemoryCompact)⟩]
   else []) ++
  (match data.cross_project with
    | some cps =>
      if cps ≠ [] then
        [⟨3, "## Cross-Project Knowledge",
          String.intercalate "\n" (cps.map formatCrossProject)⟩]
      else []
    | none => []) ++
  (match data.recent_episodes with
    | some es =>
      if es ≠ [] then
        [⟨4, "## Prior Sessions",
          String.intercalate "\n" (es.map (fun e => "- " ++ e.summary))⟩]
      else []
    | none => [])

/-- The tier-0 self-awareness block, injected outside the budget. -/
def SELF_AWARENESS_BLOCK : String :=
  "# Persistent Memory System\n\nYou have persistent memory across sessions. Your tools:\n- `memory_remember`: Store decisions, constraints, patterns, facts, or failures\n- `memory_recall`: Semantic search across all stored memories\n- `memory_bootstrap`: Load full context (working state, constraints, memories, episodes)\n\nIf this is a new session or context seems incomplete, run `memory_bootstrap` first."

/-- The flag `hasContent` computed by `buildInjection` over the bootstrap data. -/
def hasContent (data : BootstrapResponse) : Bool :=
  (data.memories.getD []).length > 0 ||
  (data.cross_project.getD []).length > 0 ||
  (data.constraints.getD []).length > 0 ||
  (data.failed_approaches.getD []).length > 0 ||
  data.state.isSome ||
  (data.recent_episodes.getD []).length > 0

/-- The minimal notice returned when the store is reachable but empty. -/
def emptyStoreNotice : String :=
  String.intercalate "\n"
    [SELF_AWARENESS_BLOCK, "",
     "No memories stored yet. Use `memory_remember` to start building persistent knowledge."]

/-- The `memoryLimit` requested from the store, scaled to the budget. -/
def memoryLimit (budget : Nat) : Nat :=
  if budget > 4000 then 15 else if budget > 2000 then 10 else 5

/-- The `episodeLimit` requested from the store, scaled to the budget. -/
def episodeLimit (budget : Nat) : Nat :=
  if budget > 4000 then 3 else if budget > 2000 then 2 else 0

/-- The budget `buildInjection` hands to `assembleSections`
(its `Math.round` result is non-negative, so `toNat` is exact). -/
noncomputable def injectionBudget (model : Option Nat) (messageCount : Nat) : Nat :=
  (decayedBudget (computeBudget model) messageCount).toNat

/-- The part of `buildInjection` that runs after the `bootstrap` call,
as a function of the already-computed character budget. -/
def buildInjectionCore (data : Option BootstrapResponse) (budget : Nat) : Option String :=
  match data with
  | none => none
  | some d =>
    if hasContent d then
      let sections := buildTieredSections d
      let formatted := assembleSections sections budget
      let disclosure :=
        if budget < 3000 then
          "\nUse `memory_bootstrap` or `memory_recall` tools for full context."
        else "\nMore context available via `memory_recall` tool."
      some (String.intercalate "\n\n" [SELF_AWARENESS_BLOCK, "", formatted, disclosure])
    else some emptyStoreNotice

/-- Function `buildInjection(projectId, model?, messageCount?)`, with the
`bootstrap` store response passed in as `data` (`none` models the unreachable
store: the client returns null on any failure). -/
noncomputable def buildInjection (data : Option BootstrapResponse)
    (model : Option Nat) (messageCount : Nat) : Option String :=
  buildInjectionCore data (injectionBudget model messageCount)

/-! ### Todo reconciliation (src/todo-sync.ts, src/types.ts) -/

/-- Enum `TodoStatus`. -/
inductive TodoStatus where
  | pending
  | in_progress
  | completed
  | cancelled
deriving DecidableEq, Repr

/-- Enum `TodoPriority`. -/
inductive TodoPriority where
  | high
  | medium
  | low
deriving DecidableEq, Repr

/-- Function `mapStatus`: unknown strings collapse to `pending`. -/
def mapStatus (s : String) : TodoStatus :=
  if s = "pending" then .pending
  else if s = "in_progress" then .in_progress
  else if s = "completed" then .completed
  else if s = "cancelled" then .cancelled
  else .pending

/-- Function `mapPriority`: an absent or unknown priority collapses to `medium`. -/
def mapPriority (p : Option String) : TodoPriority :=
  match p with
  | some s =>
    if s = "high" then .high else if s = "medium" then .medium
    else if s = "low" then .low else .medium
  | none => .medium

/-- An ephemeral session `Todo` (SDK shape, the fields the sync reads). -/
structure SessionTodo where
  id : String
  content : String
  status : String
  priority : Option String
deriving DecidableEq, Repr

/-- A `PersistentTodo` (the fields the sync reads). -/
structure PersistentTodo where
  id : String
  content : String
  status : TodoStatus
  priority : TodoPriority
deriving DecidableEq, Repr

/-- Function `normalize(content)` — trimmed, lowercased content is the identity key. -/
def normalize (content : String) : String := strToLower (strTrim content)

/-- The body of an `updateTodo` PATCH (`UpdateTodoRequest`): each field
optional.  The implicit-cancellation path sends only `status`. -/
structure UpdateFields where
  content : Option String
  status : Option TodoStatus
  priority : Option TodoPriority
deriving DecidableEq, Repr

/-- A store operation issued by one `syncTodos` pass, in issue order. -/
inductive StoreOp where
  | listTodos
  | create (content : String) (status : TodoStatus) (priority : TodoPriority)
      (sessionTodoId : String)
  | update (id : String) (fields : UpdateFields)
deriving DecidableEq, Repr

/-- The status-only update issued by the implicit-cancellation rule. -/
def cancelOp (persistentId : String) : StoreOp :=
  .update persistentId ⟨none, some .cancelled, none⟩

/-- JS `Map.set` on an insertion-ordered association list: an existing key is
updated in place, a new key is appended. -/
def mapSet (m : List (String × String)) (k v : String) : List (String × String) :=
  if (m.lookup k).isSome then m.map (fun p => if p.1 = k then (k, v) else p)
  else m ++ [(k, v)]

/-- Lookup `persistentById.get`: the maps are built by one pass of `Map.set` over
the fetched todos, so the last entry with a given key wins. -/
def lookupById (todos : List PersistentTodo) (i : String) : Option PersistentTodo :=
  (todos.filter (fun pt => pt.id = i)).getLast?

/-- Lookup `persistentByContent.get` keyed by normalized content (last wins). -/
def lookupByContent (todos : List PersistentTodo) (norm : String) : Option PersistentTodo :=
  (todos.filter (fun pt => normalize pt.content = norm)).getLast?

/-- JS `Set.add` on a list-modelled set (insertion order preserved). -/
def insertSeen (s : List String) (x : String) : List String :=
  if x ∈ s then s else s ++ [x]

/-- The mutable state threaded through one `syncTodos` pass: the per-session
id map, `seenPersistentIds`, the store operations issued so far, and the
remaining oracle of `createTodo` results (the id the store assigns, or
`none` for a failed create). -/
structure SyncState where
  idMap : List (String × String)
  seen : List String
  ops : List StoreOp
  fresh : List (Option String)
deriving DecidableEq, Repr

/-- One iteration of the main `for (const st of todos)` loop of `syncTodos`:
resolve via the id map first, fall back to content match; update when
status, priority or normalized content differ; otherwise create. -/
def syncStep (existingTodos : List PersistentTodo) (st : SyncState) (t : SessionTodo) :
    SyncState :=
  let norm := normalize t.content
  let viaMap := match st.idMap.lookup t.id with
    | some pid => lookupById existingTodos pid
    | none => none
  let persistent := match viaMap with
    | some p => some p
    | none => lookupByContent existingTodos norm
  let status := mapStatus t.status
  let priority := mapPriority t.priority
  match persistent with
  | some p =>
    let changed := p.status ≠ status ∨ p.priority ≠ priority ∨ normalize p.content ≠ norm
    { st with
      idMap := mapSet st.idMap t.id p.id
      seen := insertSeen st.seen p.id
      ops := st.ops ++ if changed then [.update p.id ⟨some t.content, some status, some priority⟩] else [] }
  | none =>
    let createdId := st.fresh.headD none
    match createdId with
    | some newId =>
      { idMap := mapSet st.idMap t.id newId
        seen := insertSeen st.seen newId
        ops := st.ops ++ [.create t.content status priority t.id]
        fresh := st.fresh.tail }
    | none =>
      { st with
        ops := st.ops ++ [.create t.content status priority t.id]
        fresh := st.fresh.tail }

/-- The final loop of `syncTodos` over the (post-main-loop) id map: a
mapping whose persistent id was not seen and whose ephemeral id no longer
appears in the session list is pruned, cancelling the persistent task if
its fetched status is neither completed nor cancelled. -/
def cancelPass (existingTodos : List PersistentTodo) (todos : List SessionTodo)
    (seen : List String) :
    List (String × String) → List StoreOp × List (String × String)
  | [] => ([], [])
  | (sessionTodoId, persistentId) :: rest =>
    if persistentId ∈ seen then
      let (ops, kept) := cancelPass existingTodos todos seen rest
      (ops, (sessionTodoId, persistentId) :: kept)
    else if todos.any (fun t => t.id = sessionTodoId) then
      let (ops, kept) := cancelPass existingTodos todos seen rest
      (ops, (sessionTodoId, persistentId) :: kept)
    else
      let headOps := match lookupById existingTodos persistentId with
        | some pt =>
          if pt.status ≠ .completed ∧ pt.status ≠ .cancelled then [cancelOp persistentId]
          else []
        | none => []
      let (ops, kept) := cancelPass existingTodos todos seen rest
      (headOps ++ ops, kept)

/-- One debounced `syncTodos(sessionId, todos, projectId)` pass.  Inputs:
the per-session id map, the current task-list snapshot, the received
`listTodos` response (`none` models a failed fetch) and the oracle of
`createTodo` results.  Output: the store operations issued (the initial
`listTodos` fetch included), the new per-session id map, and
`seenPersistentIds`. -/
def syncTodos (idMap : List (String × String)) (todos : List SessionTodo)
    (existing : Option (List PersistentTodo)) (fresh : List (Option String)) :
    List StoreOp × List (String × String) × List String :=
  if todos = [] then ([], idMap, [])
  else
    let existingTodos := existing.getD []
    let st0 : SyncState := ⟨idMap, [], [.listTodos], fresh⟩
    let stF := todos.foldl (syncStep existingTodos) st0
    let cp := cancelPass existingTodos todos stF.seen stF.idMap
    (stF.ops ++ cp.1, cp.2, stF.seen)

/-! ### Capture pipeline (src/capture.ts)

The dedup hash `((hash << 5) - hash + code) | 0` is 31·h + code wrapped to
a signed 32-bit integer (`<<` and `| 0` both truncate to int32, and the
intermediate float arithmetic is exact at these magnitudes).  Strings are
hashed over their character codes; on the BMP text exercised here the Lean
`Char.toNat` coincides with JS `charCodeAt`. -/

/-- Signed 32-bit wrap-around. -/
def wrap32 (x : Int) : Int := (x + 2 ^ 31) % 2 ^ 32 - 2 ^ 31

/-- One step of `contentHash`. -/
def hashStep (h : Int) (code : Nat) : Int := wrap32 (31 * h + code)

/-- Function `contentHash(text)` from src/capture.ts.  (The JS code renders the hash
in base 36 before storing it; that rendering is injective on int32 values,
so set membership is membership of the integer hash.) -/
def contentHash (s : String) : Int :=
  s.data.foldl (fun h c => hashStep h c.toNat) 0

/-! Regex tests.  Both capture regexes have the shape
`/\b(w1|w2|...)\b/i`: some alternative must occur at a position whose
neighbours are not word characters, compared case-insensitively.
Optional-apostrophe alternation is expanded into explicit variants. -/

/-- JS `\w`: ASCII letters, digits and underscore. -/
def isWordChar (c : Char) : Bool := c.isAlphanum || c = '_'

/-- Match a pattern (case-insensitively) at the head of the text, returning
the remaining text on success. -/
def matchPatternAt : List Char → List Char → Option (List Char)
  | [], rest => some rest
  | _ :: _, [] => none
  | p :: ps, c :: cs => if p.toLower = c.toLower then matchPatternAt ps cs else none

/-- The `\b` condition after a match: end of text or a non-word character. -/
def boundaryAfter : List Char → Bool
  | [] => true
  | c :: _ => !isWordChar c

/-- Does some alternative match at this position, with word boundaries on
both sides (`prev` is the character just before the position)? -/
def testAt (pats : List (List Char)) (prev : Option Char) (s : List Char) : Bool :=
  pats.any fun p =>
    (match prev with | none => true | some c => !isWordChar c) &&
    (match matchPatternAt p s with
      | some rest => boundaryAfter rest
      | none => false)

/-- Scan all positions of the text for a boundary-delimited match. -/
def scanPatterns (pats : List (List Char)) : Option Char → List Char → Bool
  | _, [] => false
  | prev, c :: cs => testAt pats prev (c :: cs) || scanPatterns pats (some c) cs

/-- The test `regex.test(s)` for a `/\b(...)\b/i` word-alternation regex. -/
def regexTest (pats : List String) (s : String) : Bool :=
  scanPatterns (pats.map String.data) none s.data

/-- The alternatives of `DECISION_PATTERNS`
(decided / choosing / going with / lets use / ill use / selected / picking /
switched to / migrated to / approach / architecture, with the
optional-apostrophe forms expanded). -/
def DECISION_PATTERNS : List String :=
  ["decided", "choosing", "going with", "lets use", "let\x27s use",
   "ill use", "i\x27ll use", "selected", "picking", "switched to",
   "migrated to", "approach", "architecture"]

/-- The alternatives of `FAILURE_PATTERNS`
(failed / error / bug / broken / doesnt work / crash / exception /
stacktrace / traceback / ENOENT / ECONNREFUSED / TypeError / SyntaxError,
with the optional-apostrophe forms expanded). -/
def FAILURE_PATTERNS : List String :=
  ["failed", "error", "bug", "broken", "doesnt work", "doesn\x27t work",
   "crash", "exception", "stacktrace", "traceback", "enoent",
   "econnrefused", "typeerror", "syntaxerror"]

/-- Constant `FILE_MUTATION_TOOLS`. -/
def FILE_MUTATION_TOOLS : List String :=
  ["write", "edit", "bash", "mcp_write", "mcp_edit", "mcp_bash"]

/-- An `ExtractedMemory` (src/types.ts); `confidence` is one of the exact
literals 0.5/0.6/0.8/0.9, modelled in ℚ. -/
structure ExtractedMemory where
  content : String
  type : String
  scope : String
  tags : List String
  source : String
  confidence : ℚ
deriving DecidableEq, Repr

/-- Is a character one of the sentence separators `[.!?\n]`? -/
def isSentenceSep (c : Char) : Bool := c = '.' || c = '!' || c = '?' || c = '\n'

/-- The split `text.split(/[.!?\n]+/)`: split at maximal runs of separators (runs at
either end produce empty segments, exactly as in JS). -/
def splitRuns : List Char → List Char → List String
  | [], acc => [String.mk acc.reverse]
  | c :: cs, acc =>
    if isSentenceSep c then
      String.mk acc.reverse :: splitRuns (cs.dropWhile isSentenceSep) []
    else splitRuns cs (c :: acc)
termination_by l _ => l.length
decreasing_by
  · exact Nat.lt_succ_of_le (List.Sublist.length_le (List.dropWhile_sublist _))
  · simp

/-- The tool-invocation state of a `ToolPart` (only the constructors the
extractor inspects; `completed.input.filePath`, `completed.input.path` and
`completed.title` are the three file-path fallbacks). -/
inductive ToolState where
  | completed (input_filePath : Option String) (input_path : Option String)
      (title : Option String) (output : String)
  | error (error : String)
  | other
deriving DecidableEq, Repr

/-- The content payload of a `Part`. -/
inductive PartData where
  | text (text : String)
  | tool (tool : String) (state : ToolState)
  | other
deriving DecidableEq, Repr

/-- A `Part` as delivered by `message.part.updated` (payload plus its
`sessionID`). -/
structure PartRec where
  sessionID : String
  data : PartData
deriving DecidableEq, Repr

/-- Function `extractFromPart(part)` from src/capture.ts. -/
def extractFromPart (part : PartData) : List ExtractedMemory :=
  (match part with
    | .text text =>
      if text.length > 100 ∧ regexTest DECISION_PATTERNS text then
        let sentences := (splitRuns text.data []).filter (fun s => s.length > 20)
        (sentences.take 3).filterMap fun sentence =>
          if regexTest DECISION_PATTERNS sentence then
            some { content := strTake (strTrim sentence) 1000
                   type := "decision"
                   scope := "project"
                   tags := ["assistant-decision", "auto-captured"]
                   source := "assistant:text"
                   confidence := 0.5 }
          else none
      else []
    | _ => []) ++
  (match part with
    | .tool toolName (.completed input_filePath input_path title output) =>
      (if toolName ∈ FILE_MUTATION_TOOLS ∧ output.length > 50 then
        let filePath := (input_filePath.orElse fun _ =>
          (input_path.orElse fun _ => title)).getD "unknown"
        [{ content := "File modified: " ++ filePath ++ "\nTool: " ++ toolName ++
             "\nResult: " ++ strTake output 1000
           type := "decision"
           scope := "project"
           tags := ["file-change", "auto-captured", toolName]
           source := "tool:" ++ toolName
           confidence := 0.6 }]
      else []) ++
      (if regexTest FAILURE_PATTERNS output then
        [{ content := "Tool " ++ toolName ++ " output with errors: " ++ strTake output 1500
           type := "failure"
           scope := "project"
           tags := ["tool-failure", "auto-captured", toolName]
           source := "tool:" ++ toolName
           confidence := 0.8 }]
      else [])
    | .tool toolName (.error err) =>
      [{ content := "Tool " ++ toolName ++ " error: " ++ strTake err 1500
         type := "failure"
         scope := "project"
         tags := ["tool-error", "auto-captured", toolName]
         source := "tool:" ++ toolName
         confidence := 0.9 }]
    | _ => [])

/-- The fields of an `AssistantMessage` that `extractFromAssistantMeta`
and `resolveSessionId` read.  `costStr` stands for the already-rendered
`message.cost.toFixed(4)` (kept opaque: float formatting). -/
structure MessageInfo where
  sessionID : String
  role : String
  summary : Bool
  modelID : String
  costStr : String
deriving DecidableEq, Repr

/-- Function `extractFromAssistantMeta(message)`. -/
def extractFromAssistantMeta (message : MessageInfo) : List ExtractedMemory :=
  if !message.summary then []
  else
    [{ content := "Session compacted (model: " ++ message.modelID ++ ", cost: $" ++
         message.costStr ++ ")"
       type := "episode"
       scope := "project"
       tags := ["compaction", "auto-captured"]
       source := "session:compaction"
       confidence := 0.9 }]

/-- The `error` payload of a `session.error` event; `dataJson` stands for
`JSON.stringify("data" in error ? error.data : {})`. -/
structure ErrorRec where
  name : String
  dataJson : String
deriving DecidableEq, Repr

/-- The events `processEvent` inspects (all other event types contribute no
memories and resolve to the "unknown" session). -/
inductive Event where
  | messagePartUpdated (part : PartRec)
  | messageUpdated (info : MessageInfo)
  | sessionError (sessionID : Option String) (error : Option ErrorRec)
  | otherEvent
deriving DecidableEq, Repr

/-- The candidate list a single event yields in `processEvent` (before
deduplication). -/
def eventMemories : Event → List ExtractedMemory
  | .messagePartUpdated p => extractFromPart p.data
  | .messageUpdated info =>
    if info.role = "assistant" then extractFromAssistantMeta info else []
  | .sessionError _ err =>
    let errorText := match err with
      | some er => er.name ++ ": " ++ er.dataJson
      | none => "unknown error"
    [{ content := "Session error: " ++ strTake errorText 1500
       type := "failure"
       scope := "project"
       tags := ["session-error", "auto-captured"]
       source := "session"
       confidence := 0.9 }]
  | .otherEvent => []

/-- Function `resolveSessionId(event)`: `props.sessionID`, then `props.info.sessionID`,
then `props.part.sessionID`, else "unknown". -/
def resolveSessionId : Event → String
  | .messagePartUpdated p => p.sessionID
  | .messageUpdated info => info.sessionID
  | .sessionError sid _ => sid.getD "unknown"
  | .otherEvent => "unknown"

/-- The per-session dedup ledgers (`capturedHashes`), as the set of hashes
recorded for each session id. -/
def Ledgers : Type := String → List Int

/-- The process-start state: no hashes recorded for any session. -/
def emptyLedgers : Ledgers := fun _ => []

/-- Record a hash for a session. -/
def ledgerAdd (led : Ledgers) (s : String) (h : Int) : Ledgers :=
  fun k => if k = s then h :: led s else led k

/-- The dedup loop of `processEvent` over (session, content) candidates:
`isDuplicate` consults the per-session hash set; a first occurrence records
its hash and is dispatched, a repeat is dropped.  Returns the dispatched
pairs in order and the updated ledgers. -/
def dedupRun : Ledgers → List (String × String) → List (String × String) × Ledgers
  | led, [] => ([], led)
  | led, (s, c) :: rest =>
    if contentHash c ∈ led s then dedupRun led rest
    else
      let (ds, led') := dedupRun (ledgerAdd led s (contentHash c)) rest
      ((s, c) :: ds, led')

/-- Function `processEvent(event, projectId)`: extract, then dedup-and-dispatch each
surviving candidate (the `remember` call is the dispatch; its failure is
swallowed and does not affect state). -/
def processEvent (led : Ledgers) (e : Event) : List (String × String) × Ledgers :=
  dedupRun led ((eventMemories e).map fun m => (resolveSessionId e, m.content))

/-- Processing a whole event trace in arrival order; returns every
dispatched (session, content) pair in dispatch order. -/
def processTrace : Ledgers → List Event → List (String × String)
  | _, [] => []
  | led, e :: es =>
    let (ds, led') := processEvent led e
    ds ++ processTrace led' es

/-- The flattened candidate stream of a trace: each per-event candidates
tagged with its resolved session id, in processing order. -/
def candidatesOf : List Event → List (String × String)
  | [] => []
  | e :: es => ((eventMemories e).map fun m => (resolveSessionId e, m.content)) ++ candidatesOf es

/-! ### Content buffer (src/buffer.ts)

The plugin runs on a single-threaded event loop: `add` and the synchronous
prefix of `flush` (clear the timer, `splice` the whole item array into a
batch) are atomic steps; the `await onFlush(batch)` suspension mutates no
buffer state, and its failure is swallowed.  An execution is therefore a
sequence of atomic `add`/`flush` steps; an add that lands while a previous
flush handler is still awaiting is simply an `add` step after that
flush snapshot step. -/

/-- A `BufferItem`. -/
structure BufferItem where
  text : String
  context : Option String
deriving DecidableEq, Repr

/-- The mutable state of a `ContentBuffer`: its pending `items` and whether
the idle-flush timer is armed. -/
structure BufferState where
  items : List BufferItem
  timerSet : Bool
deriving DecidableEq, Repr

/-- The initial buffer state. -/
def bufferInit : BufferState := ⟨[], false⟩

/-- The atomic steps of a buffer execution: `add item`, and `flush` (a
manual `flush()` call or the idle timer firing). -/
inductive BufferOp where
  | add (item : BufferItem)
  | flush
deriving DecidableEq, Repr

/-- The synchronous part of `flush()`: clear the timer; if the buffer is
empty do nothing, otherwise `splice` every pending item out as the batch
handed to `onFlush`. -/
def flushStep (st : BufferState) : BufferState × Option (List BufferItem) :=
  if st.items = [] then (⟨[], false⟩, none)
  else (⟨[], false⟩, some st.items)

/-- Method `add(item)`: push the item; if the buffer reached `maxSize` flush
synchronously, otherwise arm the timer if it is not armed. -/
def addStep (maxSize : Nat) (st : BufferState) (item : BufferItem) :
    BufferState × Option (List BufferItem) :=
  let items' := st.items ++ [item]
  if maxSize ≤ items'.length then flushStep ⟨items', st.timerSet⟩
  else (⟨items', true⟩, none)

/-- One atomic buffer step. -/
def bufferStep (maxSize : Nat) (st : BufferState) : BufferOp → BufferState × Option (List BufferItem)
  | .add item => addStep maxSize st item
  | .flush => flushStep st

/-- Run a buffer execution, collecting every batch handed to `onFlush`,
in order. -/
def runBuffer (maxSize : Nat) : BufferState → List BufferOp → BufferState × List (List BufferItem)
  | st, [] => (st, [])
  | st, op :: ops =>
    let (st', batch) := bufferStep maxSize st op
    let (stF, batches) := runBuffer maxSize st' ops
    (stF, (match batch with | some b => [b] | none => []) ++ batches)

/-- The items added by an execution, in order. -/
def addsOf : List BufferOp → List BufferItem
  | [] => []
  | .add item :: ops => item :: addsOf ops
  | .flush :: ops => addsOf ops

/-- Concatenation of all flush batches. -/
def batchedItems (batches : List (List BufferItem)) : List BufferItem :=
  batches.foldr (· ++ ·) []

/-! ## Helper lemmas -/

theorem batchedItems_append (b1 b2 : List (List BufferItem)) :
    batchedItems (b1 ++ b2) = batchedItems b1 ++ batchedItems b2 := by
  induction b1 with
  | nil => simp [batchedItems]
  | cons b bs ih => simp [batchedItems] at ih ⊢; simp [ih]

theorem runBuffer_cons (maxSize : Nat) (st : BufferState) (op : BufferOp) (ops : List BufferOp) :
    runBuffer maxSize st (op :: ops) =
      ((runBuffer maxSize (bufferStep maxSize st op).1 ops).1,
       (match (bufferStep maxSize st op).2 with | some b => [b] | none => []) ++
         (runBuffer maxSize (bufferStep maxSize st op).1 ops).2) := by
  simp only [runBuffer]

theorem runBuffer_conservation (maxSize : Nat) (ops : List BufferOp) :
    ∀ st : BufferState,
      batchedItems (runBuffer maxSize st ops).2 ++ (runBuffer maxSize st ops).1.items
        = st.items ++ addsOf ops := by
  induction ops with
  | nil => intro st; simp [runBuffer, batchedItems, addsOf]
  | cons op ops ih =>
    intro st
    rw [runBuffer_cons]
    cases op with
    | add item =>
      simp only [bufferStep, addStep]
      by_cases hfull : maxSize ≤ (st.items ++ [item]).length
      · have hne : ¬ (st.items ++ [item] = []) := by simp
        simp only [if_pos hfull, flushStep, if_neg hne]
        have := ih ⟨[], false⟩
        simp only [batchedItems, List.foldr_cons] at this ⊢
        simp only [addsOf]
        simp at this
        simp [this, List.append_assoc]
      · simp only [if_neg hfull]
        have := ih ⟨st.items ++ [item], true⟩
        simp only [addsOf]
        simp at this ⊢
        simp [this]
    | flush =>
      simp only [bufferStep, flushStep]
      by_cases hemp : st.items = []
      · simp only [if_pos hemp]
        have := ih ⟨[], false⟩
        simp only [addsOf]
        simp at this ⊢
        simp [this, hemp]
      · simp only [if_neg hemp]
        have := ih ⟨[], false⟩
        simp only [addsOf, batchedItems, List.foldr_cons] at this ⊢
        simp at this
        simp [this]

theorem runBuffer_append (maxSize : Nat) (ops1 : List BufferOp) :
    ∀ (st : BufferState) (ops2 : List BufferOp),
      runBuffer maxSize st (ops1 ++ ops2) =
        ((runBuffer maxSize (runBuffer maxSize st ops1).1 ops2).1,
         (runBuffer maxSize st ops1).2 ++
           (runBuffer maxSize (runBuffer maxSize st ops1).1 ops2).2) := by
  induction ops1 with
  | nil => intro st ops2; simp [runBuffer]
  | cons op ops1 ih =>
    intro st ops2
    rw [List.cons_append, runBuffer_cons, runBuffer_cons, ih]
    simp [List.append_assoc]

theorem addsOf_append (ops1 ops2 : List BufferOp) :
    addsOf (ops1 ++ ops2) = addsOf ops1 ++ addsOf ops2 := by
  induction ops1 with
  | nil => simp [addsOf]
  | cons op ops1 ih => cases op <;> simp [addsOf, ih]

theorem costOf_nil : costOf [] = 0 := rfl

theorem costOf_cons (s : TieredSection) (l : List TieredSection) :
    costOf (s :: l) = blockCost s + costOf l := by
  simp [costOf]

theorem insertByTier_perm (s : TieredSection) (l : List TieredSection) :
    List.Perm (insertByTier s l) (s :: l) := by
  induction l with
  | nil => rfl
  | cons t ts ih =>
    by_cases h : s.tier ≤ t.tier
    · simp [insertByTier, h]
    · simp only [insertByTier, if_neg h]
      exact (ih.cons t).trans (List.Perm.swap s t ts)

theorem sortByTier_perm (l : List TieredSection) : List.Perm (sortByTier l) l := by
  induction l with
  | nil => rfl
  | cons s ss ih => exact (insertByTier_perm s (sortByTier ss)).trans (ih.cons s)

theorem insertByTier_sorted (s : TieredSection) {l : List TieredSection}
    (h : l.Sorted (fun a b => a.tier ≤ b.tier)) :
    (insertByTier s l).Sorted (fun a b => a.tier ≤ b.tier) := by
  induction l with
  | nil => simp [insertByTier]
  | cons t ts ih =>
    rw [List.sorted_cons] at h
    by_cases hst : s.tier ≤ t.tier
    · rw [insertByTier, if_pos hst, List.sorted_cons]
      refine ⟨?_, List.sorted_cons.mpr h⟩
      intro b hb
      rcases List.mem_cons.mp hb with rfl | hb
      · exact hst
      · exact le_trans hst (h.1 b hb)
    · rw [insertByTier, if_neg hst, List.sorted_cons]
      refine ⟨?_, ih h.2⟩
      intro b hb
      have := (insertByTier_perm s ts).mem_iff.mp hb
      rcases List.mem_cons.mp this with rfl | hb'
      · exact le_of_not_le hst
      · exact h.1 b hb'

theorem sortByTier_sorted (l : List TieredSection) :
    (sortByTier l).Sorted (fun a b => a.tier ≤ b.tier) := by
  induction l with
  | nil => simp [sortByTier]
  | cons s ss ih => exact insertByTier_sorted s ih

theorem assembleGo_spec (l : List TieredSection) : ∀ budget : Nat,
    ∃ k, k ≤ l.length ∧
      costOf (l.take k) ≤ budget ∧
      (∀ j, j ≤ l.length → costOf (l.take j) ≤ budget → j ≤ k) ∧
      ((k = l.length ∧ assembleGo l budget = (l.take k).map blockOf) ∨
       (∃ s rest, l.drop k = s :: rest ∧
          budget < costOf (l.take k) + blockCost s ∧
          (if s.tier = 1 ∧ 100 < budget - costOf (l.take k) then
             assembleGo l budget =
               (l.take k).map blockOf ++
                 [strTake (blockOf s) (budget - costOf (l.take k) - 30) ++ "\n[...truncated]"]
           else assembleGo l budget = (l.take k).map blockOf))) := by
  induction l with
  | nil =>
    intro budget
    exact ⟨0, by simp, by simp [costOf], fun j hj _ => hj, Or.inl ⟨rfl, by simp [assembleGo]⟩⟩
  | cons s rest ih =>
    intro budget
    by_cases hfit : blockCost s ≤ budget
    · obtain ⟨k', hlen, hcost, hmax, hdisj⟩ := ih (budget - blockCost s)
      have hgo : assembleGo (s :: rest) budget
          = blockOf s :: assembleGo rest (budget - blockCost s) := by
        have hcond : ¬ ((blockOf s).length + 2 > budget) := by
          simp only [blockCost] at hfit; omega
        simp only [assembleGo, if_neg hcond]
        rfl
      refine ⟨k' + 1, by simpa using hlen, ?_, ?_, ?_⟩
      · rw [List.take_succ_cons, costOf_cons]
        omega
      · intro j hj hcostj
        cases j with
        | zero => omega
        | succ j' =>
          rw [List.take_succ_cons, costOf_cons] at hcostj
          have : costOf (rest.take j') ≤ budget - blockCost s := by omega
          have := hmax j' (by simpa using hj) this
          omega
      · rcases hdisj with ⟨hkeq, heq⟩ | ⟨s', rest', hdrop, hover, hif⟩
        · left
          refine ⟨by simp [hkeq], ?_⟩
          rw [hgo, heq, List.take_succ_cons, List.map_cons]
        · right
          refine ⟨s', rest', by simpa using hdrop, ?_, ?_⟩
          · rw [List.take_succ_cons, costOf_cons]
            omega
          · have hrem : budget - costOf ((s :: rest).take (k' + 1))
                = budget - blockCost s - costOf (rest.take k') := by
              rw [List.take_succ_cons, costOf_cons, Nat.sub_add_eq]
            rw [hrem, List.take_succ_cons, List.map_cons]
            split_ifs at hif ⊢ with hc
            · rw [hgo, hif]
              simp
            · rw [hgo, hif]
    · refine ⟨0, by simp, by simp [costOf], ?_, ?_⟩
      · intro j hj hcostj
        cases j with
        | zero => omega
        | succ j' =>
          rw [List.take_succ_cons, costOf_cons] at hcostj
          omega
      · right
        refine ⟨s, rest, by simp, by simp [costOf]; omega, ?_⟩
        have hcond : (blockOf s).length + 2 > budget := by
          simp only [blockCost] at hfit; omega
        simp only [List.take_zero, costOf_nil, Nat.sub_zero, List.map_nil, List.nil_append]
        split_ifs with hc
        · simp only [assembleGo, if_pos hcond]
          rw [if_pos hc]
        · simp only [assembleGo, if_pos hcond]
          rw [if_neg hc]

/-- Rounding is monotone. -/
theorem round_le_round_of_le {x y : ℝ} (h : x ≤ y) : round x ≤ round y := by
  rw [round_eq, round_eq]
  exact Int.floor_le_floor (by linarith)

/-- The value `Math.round(ctx * 0.025 * 4)` over exact arithmetic equals the
half-up rounding `(ctx + 5) / 10` computed in ℕ. -/
theorem round_mul_budget_eq (ctx : ℕ) :
    round ((ctx : ℝ) * 0.025 * 4) = ((ctx + 5) / 10 : ℕ) := by
  have hk1 : 10 * ((ctx + 5) / 10) ≤ ctx + 5 := Nat.mul_div_le _ 10
  have hk2 : ctx + 5 < 10 * ((ctx + 5) / 10 + 1) := by
    have := Nat.mod_lt (ctx + 5) (show 0 < 10 by norm_num)
    have := Nat.div_add_mod (ctx + 5) 10
    omega
  have h1 : (10 : ℝ) * (((ctx + 5) / 10 : ℕ) : ℝ) ≤ ((ctx : ℝ) + 5) := by
    exact_mod_cast hk1
  have h2 : ((ctx : ℝ) + 5) < 10 * ((((ctx + 5) / 10 : ℕ) : ℝ) + 1) := by
    exact_mod_cast hk2
  have key : (ctx : ℝ) * 0.025 * 4 + 1 / 2 = ((ctx : ℝ) + 5) / 10 := by
    ring_nf
  rw [round_eq, key, Int.floor_eq_iff]
  constructor
  · rw [Int.cast_natCast, le_div_iff₀ (show (0:ℝ) < 10 by norm_num)]
    linarith
  · rw [Int.cast_natCast, div_lt_iff₀ (show (0:ℝ) < 10 by norm_num)]
    linarith

theorem dedupRun_append (xs : List (String × String)) :
    ∀ (led : Ledgers) (ys : List (String × String)),
      dedupRun led (xs ++ ys) =
        ((dedupRun led xs).1 ++ (dedupRun (dedupRun led xs).2 ys).1,
         (dedupRun (dedupRun led xs).2 ys).2) := by
  induction xs with
  | nil => intro led ys; simp [dedupRun]
  | cons p xs ih =>
    intro led ys
    obtain ⟨s, c⟩ := p
    by_cases h : contentHash c ∈ led s
    · simp only [List.cons_append, dedupRun, if_pos h]
      exact ih led ys
    · simp only [List.cons_append, dedupRun, if_neg h, List.append_eq]
      rw [ih (ledgerAdd led s (contentHash c)) ys]

theorem dedupRun_count (xs : List (String × String)) :
    ∀ (led : Ledgers) (s c : String),
      ((contentHash c ∈ led s) → ((dedupRun led xs).1.count (s, c) = 0))
      ∧ (dedupRun led xs).1.count (s, c) ≤ 1 := by
  induction xs with
  | nil => intro led s c; simp [dedupRun]
  | cons p xs ih =>
    intro led s c
    obtain ⟨s', c'⟩ := p
    by_cases hd : contentHash c' ∈ led s'
    · simp only [dedupRun, if_pos hd]
      exact ih led s c
    · simp only [dedupRun, if_neg hd]
      have ih' := ih (ledgerAdd led s' (contentHash c')) s c
      constructor
      · intro hmem
        have hne : (s', c') ≠ (s, c) := by
          intro he
          rw [Prod.mk.injEq] at he
          obtain ⟨rfl, rfl⟩ := he
          exact hd hmem
        rw [List.count_cons]
        have h0 : (dedupRun (ledgerAdd led s' (contentHash c')) xs).1.count (s, c) = 0 := by
          apply ih'.1
          simp only [ledgerAdd]
          by_cases hss : s = s'
          · subst hss; simp [hmem]
          · simp [hss, hmem]
        simp [h0, hne]
      · rw [List.count_cons]
        by_cases he : (s', c') = (s, c)
        · rw [Prod.mk.injEq] at he
          obtain ⟨hs, hc⟩ := he
          subst hs; subst hc
          have h0 : (dedupRun (ledgerAdd led s' (contentHash c')) xs).1.count (s', c') = 0 := by
            apply (ih (ledgerAdd led s' (contentHash c')) s' c').1
            simp [ledgerAdd]
          simp [h0]
        · simpa [he] using ih'.2

theorem dedupRun_first (pre : List (String × String)) :
    ∀ (led : Ledgers) (post : List (String × String)) (s c : String),
      contentHash c ∉ led s →
      (∀ c', (s, c') ∈ pre → contentHash c' ≠ contentHash c) →
      (s, c) ∈ (dedupRun led (pre ++ (s, c) :: post)).1 := by
  induction pre with
  | nil =>
    intro led post s c hfresh _
    simp only [List.nil_append, dedupRun, if_neg hfresh]
    simp
  | cons p pre ih =>
    intro led post s c hfresh hpre
    obtain ⟨s', c'⟩ := p
    by_cases hd : contentHash c' ∈ led s'
    · simp only [List.cons_append, dedupRun, if_pos hd]
      exact ih led post s c hfresh (fun c'' hc'' => hpre c'' (List.mem_cons_of_mem _ hc''))
    · simp only [List.cons_append, dedupRun, if_neg hd]
      have hfresh' : contentHash c ∉ ledgerAdd led s' (contentHash c') s := by
        intro hmem
        simp only [ledgerAdd] at hmem
        by_cases hss : s = s'
        · subst hss
          rw [if_pos rfl] at hmem
          rcases List.mem_cons.mp hmem with heq | hmem2
          · exact hpre c' (List.mem_cons_self _ _) heq.symm
          · exact hfresh hmem2
        · rw [if_neg hss] at hmem
          exact hfresh hmem
      have hm := ih (ledgerAdd led s' (contentHash c')) post s c hfresh'
        (fun c'' hc'' => hpre c'' (List.mem_cons_of_mem _ hc''))
      exact List.mem_cons_of_mem _ hm

theorem processTrace_eq_dedupRun (tr : List Event) :
    ∀ led : Ledgers, processTrace led tr = (dedupRun led (candidatesOf tr)).1 := by
  induction tr with
  | nil => intro led; simp [processTrace, candidatesOf, dedupRun]
  | cons e es ih =>
    intro led
    simp only [processTrace, candidatesOf, processEvent]
    rw [dedupRun_append, ih]

theorem getLast?_eq_of_all_eq {α : Type} (p : α) :
    ∀ l : List α, l ≠ [] → (∀ x ∈ l, x = p) → l.getLast? = some p := by
  intro l
  induction l with
  | nil => intro h; exact absurd rfl h
  | cons a l ih =>
    intro _ hall
    cases l with
    | nil => simp [hall a (List.mem_singleton.mpr rfl)]
    | cons b l' =>
      rw [List.getLast?_cons_cons]
      exact ih (by simp) (fun x hx => hall x (List.mem_cons_of_mem a hx))

theorem lookupByContent_eq (existing : List PersistentTodo) (p : PersistentTodo)
    (norm : String) (h1 : p ∈ existing) (h2 : normalize p.content = norm)
    (h3 : ∀ q ∈ existing, normalize q.content = norm → q = p) :
    lookupByContent existing norm = some p := by
  apply getLast?_eq_of_all_eq
  · intro hemp
    have : p ∈ existing.filter (fun pt => normalize pt.content = norm) :=
      List.mem_filter.mpr ⟨h1, by simp [h2]⟩
    rw [hemp] at this
    exact absurd this (List.not_mem_nil p)
  · intro x hx
    have := List.mem_filter.mp hx
    exact h3 x this.1 (by simpa using this.2)

/-- The new ops appended by one main-loop iteration. -/
def opShape (t : SessionTodo) (op : StoreOp) : Prop :=
  (∃ pid, op = .update pid
      ⟨some t.content, some (mapStatus t.status), some (mapPriority t.priority)⟩)
  ∨ op = .create t.content (mapStatus t.status) (mapPriority t.priority) t.id

theorem syncStep_ops (ex : List PersistentTodo) (st : SyncState) (t : SessionTodo) :
    ∃ newOps, (syncStep ex st t).ops = st.ops ++ newOps
      ∧ ∀ op ∈ newOps, opShape t op := by
  simp only [syncStep]
  cases hper : (match st.idMap.lookup t.id with
      | some pid => lookupById ex pid
      | none => none : Option PersistentTodo) with
  | some p =>
    simp only [hper]
    refine ⟨_, rfl, ?_⟩
    intro op hop
    split_ifs at hop with hch
    · rcases List.mem_singleton.mp hop with rfl
      exact Or.inl ⟨p.id, rfl⟩
    · exact absurd hop (List.not_mem_nil op)
  | none =>
    simp only [hper]
    cases hcon : lookupByContent ex (normalize t.content) with
    | some p =>
      simp only [hcon]
      refine ⟨_, rfl, ?_⟩
      intro op hop
      split_ifs at hop with hch
      · rcases List.mem_singleton.mp hop with rfl
        exact Or.inl ⟨p.id, rfl⟩
      · exact absurd hop (List.not_mem_nil op)
    | none =>
      simp only [hcon]
      cases hfr : st.fresh.headD none with
      | some newId =>
        simp only [hfr]
        exact ⟨_, rfl, fun op hop => by
          rcases List.mem_singleton.mp hop with rfl
          exact Or.inr rfl⟩
      | none =>
        simp only [hfr]
        exact ⟨_, rfl, fun op hop => by
          rcases List.mem_singleton.mp hop with rfl
          exact Or.inr rfl⟩

theorem foldl_syncStep_ops (ex : List PersistentTodo) (todos : List SessionTodo) :
    ∀ st : SyncState, ∀ op ∈ (todos.foldl (syncStep ex) st).ops,
      op ∈ st.ops ∨ ∃ t ∈ todos, opShape t op := by
  induction todos with
  | nil => intro st op hop; exact Or.inl hop
  | cons t ts ih =>
    intro st op hop
    rw [List.foldl_cons] at hop
    rcases ih (syncStep ex st t) op hop with hin | ⟨t', ht', hshape⟩
    · obtain ⟨newOps, heq, hsh⟩ := syncStep_ops ex st t
      rw [heq] at hin
      rcases List.mem_append.mp hin with h | h
      · exact Or.inl h
      · exact Or.inr ⟨t, List.mem_cons_self _ _, hsh op h⟩
    · exact Or.inr ⟨t', List.mem_cons_of_mem _ ht', hshape⟩

theorem mapSet_mem_of_ne (m : List (String × String)) (eid pid k v : String)
    (hmem : (eid, pid) ∈ m) (hne : eid ≠ k) : (eid, pid) ∈ mapSet m k v := by
  simp only [mapSet]
  split_ifs with h
  · apply List.mem_map.mpr
    refine ⟨(eid, pid), hmem, ?_⟩
    simp [hne]
  · exact List.mem_append_left _ hmem

theorem syncStep_idMap_mem (ex : List PersistentTodo) (st : SyncState) (t : SessionTodo)
    (eid pid : String) (hmem : (eid, pid) ∈ st.idMap) (hne : t.id ≠ eid) :
    (eid, pid) ∈ (syncStep ex st t).idMap := by
  simp only [syncStep]
  cases hper : (match st.idMap.lookup t.id with
      | some pid => lookupById ex pid
      | none => none : Option PersistentTodo) with
  | some p =>
    simp only [hper]
    exact mapSet_mem_of_ne _ _ _ _ _ hmem (Ne.symm hne)
  | none =>
    simp only [hper]
    cases hcon : lookupByContent ex (normalize t.content) with
    | some p =>
      simp only [hcon]
      exact mapSet_mem_of_ne _ _ _ _ _ hmem (Ne.symm hne)
    | none =>
      simp only [hcon]
      cases hfr : st.fresh.headD none with
      | some newId =>
        simp only [hfr]
        exact mapSet_mem_of_ne _ _ _ _ _ hmem (Ne.symm hne)
      | none =>
        simp only [hfr]
        exact hmem

theorem foldl_syncStep_idMap_mem (ex : List PersistentTodo) (todos : List SessionTodo) :
    ∀ (st : SyncState) (eid pid : String), (eid, pid) ∈ st.idMap →
      (∀ t ∈ todos, t.id ≠ eid) →
      (eid, pid) ∈ (todos.foldl (syncStep ex) st).idMap := by
  induction todos with
  | nil => intro st eid pid hmem _; exact hmem
  | cons t ts ih =>
    intro st eid pid hmem hall
    rw [List.foldl_cons]
    exact ih _ eid pid
      (syncStep_idMap_mem ex st t eid pid hmem (hall t (List.mem_cons_self _ _)))
      (fun t' ht' => hall t' (List.mem_cons_of_mem _ ht'))

theorem cancelPass_mem (ex : List PersistentTodo) (todos : List SessionTodo)
    (seen : List String) :
    ∀ (m : List (String × String)) (eid pid : String) (pt : PersistentTodo),
      (eid, pid) ∈ m → pid ∉ seen → (∀ t ∈ todos, t.id ≠ eid) →
      lookupById ex pid = some pt →
      pt.status ≠ .completed → pt.status ≠ .cancelled →
      cancelOp pid ∈ (cancelPass ex todos seen m).1 := by
  intro m
  induction m with
  | nil => intro eid pid pt hmem; exact absurd hmem (List.not_mem_nil _)
  | cons hd rest ih =>
    intro eid pid pt hmem hseen hall hlook hnc hncc
    obtain ⟨sid', pid'⟩ := hd
    rcases List.mem_cons.mp hmem with heq | hmem'
    · rw [Prod.mk.injEq] at heq
      obtain ⟨rfl, rfl⟩ := heq
      simp only [cancelPass, if_neg hseen]
      have hex : ¬ (todos.any fun t => t.id = eid) = true := by
        simp only [List.any_eq_true]
        rintro ⟨t, ht, hid⟩
        exact hall t ht (by simpa using hid)
      rw [if_neg hex]
      simp only [hlook]
      rw [if_pos ⟨hnc, hncc⟩]
      exact List.mem_append_left _ (List.mem_singleton.mpr rfl)
    · by_cases h1 : pid' ∈ seen
      · simp only [cancelPass, if_pos h1]
        exact ih eid pid pt hmem' hseen hall hlook hnc hncc
      · simp only [cancelPass, if_neg h1]
        by_cases h2 : (todos.any fun t => t.id = sid') = true
        · rw [if_pos h2]
          exact ih eid pid pt hmem' hseen hall hlook hnc hncc
        · rw [if_neg h2]
          exact List.mem_append_right _ (ih eid pid pt hmem' hseen hall hlook hnc hncc)

theorem cancelPass_ops_shape (ex : List PersistentTodo) (todos : List SessionTodo)
    (seen : List String) :
    ∀ (m : List (String × String)) (op : StoreOp), op ∈ (cancelPass ex todos seen m).1 →
      ∃ pid pt, op = cancelOp pid ∧ lookupById ex pid = some pt
        ∧ pt.status ≠ .completed ∧ pt.status ≠ .cancelled := by
  intro m
  induction m with
  | nil => intro op hop; exact absurd hop (List.not_mem_nil _)
  | cons hd rest ih =>
    intro op hop
    obtain ⟨sid', pid'⟩ := hd
    by_cases h1 : pid' ∈ seen
    · simp only [cancelPass, if_pos h1] at hop
      exact ih op hop
    · simp only [cancelPass, if_neg h1] at hop
      by_cases h2 : (todos.any fun t => t.id = sid') = true
      · rw [if_pos h2] at hop
        exact ih op hop
      · rw [if_neg h2] at hop
        rcases List.mem_append.mp hop with hin | hin
        · split at hin
          next pt hlook =>
            split_ifs at hin with hcond
            · rcases List.mem_singleton.mp hin with rfl
              exact ⟨pid', pt, rfl, hlook, hcond.1, hcond.2⟩
            · exact absurd hin (List.not_mem_nil op)
          next hlook => exact absurd hin (List.not_mem_nil op)
        · exact ih op hin

theorem syncTodos_result (idMap : List (String × String)) (todos : List SessionTodo)
    (existing : Option (List PersistentTodo)) (fresh : List (Option String))
    (h : todos ≠ []) :
    syncTodos idMap todos existing fresh =
      ((todos.foldl (syncStep (existing.getD [])) ⟨idMap, [], [.listTodos], fresh⟩).ops
         ++ (cancelPass (existing.getD []) todos
              (todos.foldl (syncStep (existing.getD [])) ⟨idMap, [], [.listTodos], fresh⟩).seen
              (todos.foldl (syncStep (existing.getD [])) ⟨idMap, [], [.listTodos], fresh⟩).idMap).1,
       (cancelPass (existing.getD []) todos
          (todos.foldl (syncStep (existing.getD [])) ⟨idMap, [], [.listTodos], fresh⟩).seen
          (todos.foldl (syncStep (existing.getD [])) ⟨idMap, [], [.listTodos], fresh⟩).idMap).2,
       (todos.foldl (syncStep (existing.getD [])) ⟨idMap, [], [.listTodos], fresh⟩).seen) := by
  simp only [syncTodos, if_neg h]


/-! ## Claims -/

/-- C2: the injection budget matches its reference definition.  With a
known (nonzero — JS truthiness treats a zero context as unavailable)
model context size, `rawBudget = clamp(modelContextTokens * 0.025 * 4,
600, 8000)` (hence within [600, 8000] and monotone in the context size);
without one it is the fixed default 3000.  For `messageCount > 10` the
effective budget is `round(rawBudget * max(0.35, 1 - log10(messageCount) *
0.35))`, never below the (rounded) 35% floor; for `messageCount ≤ 10` the
raw budget is used unchanged. -/
theorem budget_spec :
    computeBudget none = DEFAULT_BUDGET_CHARS
  ∧ (∀ ctx : ℕ, 1 ≤ ctx →
      ((computeBudget (some ctx) : ℤ) = rawBudgetRef ctx
        ∧ MIN_BUDGET_CHARS ≤ computeBudget (some ctx)
        ∧ computeBudget (some ctx) ≤ MAX_BUDGET_CHARS))
  ∧ (∀ c c' : ℕ, 1 ≤ c → c ≤ c' → computeBudget (some c) ≤ computeBudget (some c'))
  ∧ (∀ base mc : ℕ, mc ≤ 10 → decayedBudget base mc = (base : ℤ))
  ∧ (∀ base mc : ℕ, 10 < mc →
      (decayedBudget base mc =
          round ((base : ℝ) * max 0.35 (1.0 - Real.logb 10 mc * 0.35))
        ∧ round ((0.35 : ℝ) * base) ≤ decayedBudget base mc)) := by
  refine ⟨rfl, ?_, ?_, ?_, ?_⟩
  · intro ctx hctx
    have hne : ¬ ctx = 0 := by omega
    refine ⟨?_, ?_, ?_⟩
    · simp only [computeBudget, if_neg hne, rawBudgetRef, roundBudgetChars,
        MIN_BUDGET_CHARS, MAX_BUDGET_CHARS, round_mul_budget_eq]
      push_cast
      rfl
    · simp only [computeBudget, if_neg hne, MIN_BUDGET_CHARS]
      exact le_max_left _ _
    · simp only [computeBudget, if_neg hne, MIN_BUDGET_CHARS, MAX_BUDGET_CHARS]
      exact max_le (by norm_num) (min_le_left _ _)
  · intro c c' hc hcc
    have hne : ¬ c = 0 := by omega
    have hne' : ¬ c' = 0 := by omega
    simp only [computeBudget, if_neg hne, if_neg hne', roundBudgetChars]
    exact max_le_max (le_refl _)
      (min_le_min (le_refl _) (Nat.div_le_div_right (by omega)))
  · intro base mc h
    simp [decayedBudget, Nat.not_lt.mpr h]
  · intro base mc h
    constructor
    · simp [decayedBudget, if_pos h, decayFactor]
    · unfold decayedBudget
      rw [if_pos h]
      apply round_le_round_of_le
      have hf : (0.35 : ℝ) ≤ decayFactor mc := le_max_left _ _
      calc (0.35 : ℝ) * base = (base : ℝ) * 0.35 := by ring
        _ ≤ (base : ℝ) * decayFactor mc :=
            mul_le_mul_of_nonneg_left hf (by positivity)

/-- Witness for C2 at concrete inputs: an 8000-token model context yields
an 800-char raw budget within bounds; 5 messages leave a 3000-char budget
unchanged; 100 messages decay it to 35%, i.e. 1050 chars. -/
theorem budget_spec_witness :
    MIN_BUDGET_CHARS ≤ computeBudget (some 8000)
  ∧ decayedBudget 3000 5 = 3000
  ∧ decayedBudget 3000 100 = 1050 := by
  refine ⟨(budget_spec.2.1 8000 (by norm_num)).2.1,
    budget_spec.2.2.2.1 3000 5 (by norm_num), ?_⟩
  have h := (budget_spec.2.2.2.2 3000 100 (by norm_num)).1
  rw [h]
  have hlog : Real.logb 10 ((100 : ℕ) : ℝ) = 2 := by
    have h100 : ((100 : ℕ) : ℝ) = (10 : ℝ) ^ (2 : ℕ) := by norm_num
    rw [h100, Real.logb_pow, Real.logb_self_eq_one (by norm_num)]
    norm_num
  rw [hlog]
  have hm : max (0.35 : ℝ) (1.0 - 2 * 0.35) = 0.35 := by norm_num
  rw [hm]
  have : ((3000 : ℕ) : ℝ) * 0.35 = ((1050 : ℤ) : ℝ) := by norm_num
  rw [this, round_intCast]

/-- C3: `buildInjection` returns the absent-value sentinel exactly when the
bootstrap call failed (the store is unreachable); a reachable store with no
content at all (no memories, cross-project items, constraints, failed
approaches, state or episodes — i.e. `hasContent` is false) yields the
non-null minimal self-awareness notice instead of silence. -/
theorem injection_sentinel_spec (data : Option BootstrapResponse)
    (model : Option ℕ) (messageCount : ℕ) :
    (buildInjection data model messageCount = none ↔ data = none)
  ∧ (∀ d, data = some d → hasContent d = false →
      buildInjection data model messageCount = some emptyStoreNotice) := by
  constructor
  · cases data with
    | none => simp [buildInjection, buildInjectionCore]
    | some d =>
      simp only [buildInjection, buildInjectionCore]
      by_cases h : hasContent d <;> simp [h]
  · intro d hd hc
    subst hd
    simp [buildInjection, buildInjectionCore, hc]

/-- Witness for C3: a reachable store whose bootstrap response is entirely
empty produces the self-awareness notice, not the sentinel. -/
theorem injection_sentinel_spec_witness :
    buildInjection (some ⟨none, none, none, none, none, none⟩) none 0
      = some emptyStoreNotice :=
  (injection_sentinel_spec (some ⟨none, none, none, none, none, none⟩) none 0).2
    ⟨none, none, none, none, none, none⟩ rfl rfl

/-- C9: content-buffer item conservation.  Over every execution (a sequence
of atomic `add`/`flush` steps of the single-threaded event loop, where an
add landing while a flush handler is awaiting is an add after that flush
snapshot): the flushed batches plus the pending items are exactly the
added items in order; per item the batch count plus pending count equals
the add count (so no item is ever in two batches, dropped, or
double-counted, and an item added after a snapshot is not in that or any
earlier batch); batches already emitted are unaffected by later steps; and
a final flush delivers every added item with nothing left pending. -/
theorem buffer_conservation_spec (maxSize : Nat) (ops : List BufferOp) :
    (batchedItems (runBuffer maxSize bufferInit ops).2
        ++ (runBuffer maxSize bufferInit ops).1.items = addsOf ops)
  ∧ (∀ item : BufferItem,
      (batchedItems (runBuffer maxSize bufferInit ops).2).count item
        + ((runBuffer maxSize bufferInit ops).1.items).count item
        = (addsOf ops).count item)
  ∧ (∀ ops2 : List BufferOp,
      (runBuffer maxSize bufferInit (ops ++ ops2)).2
        = (runBuffer maxSize bufferInit ops).2
          ++ (runBuffer maxSize (runBuffer maxSize bufferInit ops).1 ops2).2)
  ∧ (batchedItems (runBuffer maxSize bufferInit (ops ++ [.flush])).2 = addsOf ops
      ∧ (runBuffer maxSize bufferInit (ops ++ [.flush])).1.items = []) := by
  have hcons := runBuffer_conservation maxSize ops bufferInit
  rw [show bufferInit.items = [] from rfl, List.nil_append] at hcons
  refine ⟨hcons, ?_, ?_, ?_, ?_⟩
  · intro item
    rw [← hcons, List.count_append]
  · intro ops2
    rw [runBuffer_append]
  · rw [runBuffer_append, batchedItems_append, runBuffer_cons]
    simp only [runBuffer, bufferStep]
    by_cases hemp : (runBuffer maxSize bufferInit ops).1.items = []
    · simp only [flushStep, if_pos hemp]
      simpa [batchedItems, hemp] using hcons
    · simp only [flushStep, if_neg hemp]
      simpa [batchedItems] using hcons
  · rw [runBuffer_append, runBuffer_cons]
    simp only [runBuffer, bufferStep]
    by_cases hemp : (runBuffer maxSize bufferInit ops).1.items = []
    · simp [flushStep, if_pos hemp]
    · simp [flushStep, if_neg hemp]

/-- C1 (amended): `assembleSections` processes the sections stably sorted
by tier ascending and greedily appends the longest prefix whose cumulative
cost (block length + 2) fits the budget.  At the first section that does
not fit: if it is tier 1 *and more than 100 characters of budget remain*,
it is truncated into the remaining budget with the `[...truncated]` marker
and assembly stops; otherwise — including a tier-1 section with at most
100 characters remaining, which is dropped — assembly stops without it or
any later section; sections are never reordered out of tier order. -/
theorem assemble_tiered_spec (sections : List TieredSection) (budget : Nat) :
    (sortByTier sections).Sorted (fun a b => a.tier ≤ b.tier)
  ∧ List.Perm (sortByTier sections) sections
  ∧ (∃ k, k ≤ (sortByTier sections).length ∧
      costOf ((sortByTier sections).take k) ≤ budget ∧
      (∀ j, j ≤ (sortByTier sections).length →
        costOf ((sortByTier sections).take j) ≤ budget → j ≤ k) ∧
      ((k = (sortByTier sections).length ∧
          assembleBlocks sections budget = ((sortByTier sections).take k).map blockOf) ∨
       (∃ s rest, (sortByTier sections).drop k = s :: rest ∧
          budget < costOf ((sortByTier sections).take k) + blockCost s ∧
          (if s.tier = 1 ∧ 100 < budget - costOf ((sortByTier sections).take k) then
             assembleBlocks sections budget =
               ((sortByTier sections).take k).map blockOf ++
                 [strTake (blockOf s) (budget - costOf ((sortByTier sections).take k) - 30)
                   ++ "\n[...truncated]"]
           else assembleBlocks sections budget
              = ((sortByTier sections).take k).map blockOf)))) :=
  ⟨sortByTier_sorted sections, sortByTier_perm sections,
    assembleGo_spec (sortByTier sections) budget⟩

/-- Witness for C1 at a concrete input (the spec small-budget scenario):
a 50-char state section and a 40-char constraint section both fit an
800-char budget in tier order with no truncation marker. -/
theorem assemble_tiered_spec_witness :
    List.Perm
      (sortByTier [⟨2, "## Recent Failures (avoid repeating)", "- [failure] x"⟩,
        ⟨1, "## Constraints", "- [constraint] no rewrites in Rust"⟩])
      [⟨2, "## Recent Failures (avoid repeating)", "- [failure] x"⟩,
        ⟨1, "## Constraints", "- [constraint] no rewrites in Rust"⟩]
  ∧ assembleBlocks
      [⟨2, "## Recent Failures (avoid repeating)", "- [failure] x"⟩,
        ⟨1, "## Constraints", "- [constraint] no rewrites in Rust"⟩] 800
      = ["## Constraints\n- [constraint] no rewrites in Rust",
         "## Recent Failures (avoid repeating)\n- [failure] x"] :=
  ⟨(assemble_tiered_spec
      [⟨2, "## Recent Failures (avoid repeating)", "- [failure] x"⟩,
        ⟨1, "## Constraints", "- [constraint] no rewrites in Rust"⟩] 800).2.1,
    by decide⟩

/-- Counterexample to C1 as stated: a tier-1 section that does not fit a
50-char budget is dropped entirely (remaining ≤ 100 chars), not truncated —
the output is empty, with no truncation marker. -/
theorem assemble_tiered_counterexample :
    assembleSections [⟨1, "## Constraints", String.mk (List.replicate 60 'X')⟩] 50 = ""
  ∧ (⟨1, "## Constraints", String.mk (List.replicate 60 'X')⟩ : TieredSection).tier = 1
  ∧ 50 < blockCost ⟨1, "## Constraints", String.mk (List.replicate 60 'X')⟩ := by
  decide

/-- C4 (amended): per-session dedup idempotence.  Over every event trace,
a given (session, content) pair is dispatched to the store at most once —
once content C went out for session S, later candidates with the same
content in S produce no second store call.  The first occurrence of C in S
is dispatched provided no earlier candidate of S had a *colliding rolling
hash*; distinct contents with equal `contentHash` (e.g. "Aa" / "BB"
segments) can suppress a first occurrence, so the unconditional claim
fails. -/
theorem capture_dedup_spec (trace : List Event) (S C : String) :
    (processTrace emptyLedgers trace).count (S, C) ≤ 1
  ∧ (∀ pre post, candidatesOf trace = pre ++ (S, C) :: post →
      (∀ c', (S, c') ∈ pre → contentHash c' ≠ contentHash C) →
      (S, C) ∈ processTrace emptyLedgers trace) := by
  constructor
  · rw [processTrace_eq_dedupRun]
    exact (dedupRun_count (candidatesOf trace) emptyLedgers S C).2
  · intro pre post hsplit hcoll
    rw [processTrace_eq_dedupRun, hsplit]
    exact dedupRun_first pre emptyLedgers post S C (by simp [emptyLedgers]) hcoll

/-- Witness for C4: a lone session-error candidate (no earlier colliding
candidate) is dispatched, and is dispatched only once. -/
theorem capture_dedup_spec_witness :
    ("S", "Session error: Aa: \x7b\x7d")
      ∈ processTrace emptyLedgers
          [Event.sessionError (some "S") (some ⟨"Aa", "\x7b\x7d"⟩)]
  ∧ (processTrace emptyLedgers
        [Event.sessionError (some "S") (some ⟨"Aa", "\x7b\x7d"⟩)]).count
      ("S", "Session error: Aa: \x7b\x7d") ≤ 1 :=
  ⟨(capture_dedup_spec [Event.sessionError (some "S") (some ⟨"Aa", "\x7b\x7d"⟩)]
      "S" "Session error: Aa: \x7b\x7d").2 [] []
      (by decide) (by intro c' hc'; exact absurd hc' (List.not_mem_nil _)),
   (capture_dedup_spec [Event.sessionError (some "S") (some ⟨"Aa", "\x7b\x7d"⟩)]
      "S" "Session error: Aa: \x7b\x7d").1⟩

set_option maxRecDepth 8000 in
/-- Counterexample to C4 as stated: the rolling hash collides on the
"Aa"/"BB" segments, so after a session error named "BB" is captured, the
*first* occurrence of the distinct content produced by error "Aa" is
silently dropped — it is never dispatched. -/
theorem capture_dedup_counterexample :
    candidatesOf
        [Event.sessionError (some "S") (some ⟨"BB", "\x7b\x7d"⟩),
         Event.sessionError (some "S") (some ⟨"Aa", "\x7b\x7d"⟩)]
      = [("S", "Session error: BB: \x7b\x7d"), ("S", "Session error: Aa: \x7b\x7d")]
  ∧ processTrace emptyLedgers
        [Event.sessionError (some "S") (some ⟨"BB", "\x7b\x7d"⟩),
         Event.sessionError (some "S") (some ⟨"Aa", "\x7b\x7d"⟩)]
      = [("S", "Session error: BB: \x7b\x7d")]
  ∧ ("Session error: Aa: \x7b\x7d" : String) ≠ "Session error: BB: \x7b\x7d" := by
  decide

/-- C8 (amended): a completed tool invocation yields a `failure` candidate
exactly when its output matches the failure-signal pattern
(failed / error / bug / broken / does-not-work / crash / exception /
stacktrace / traceback / ENOENT / ECONNREFUSED / TypeError / SyntaxError,
word-bounded, case-insensitive).  There is no transient-failure filter:
outputs mentioning only "timeout" or "multiple matches" yield no failure
candidate merely because those words are not in the pattern, while a
file-not-found output (ENOENT) *does* yield a failure candidate. -/
theorem capture_failure_signal (toolName : String)
    (fp ip ti : Option String) (output : String) :
    (∃ m ∈ extractFromPart (.tool toolName (.completed fp ip ti output)),
        m.type = "failure")
      ↔ regexTest FAILURE_PATTERNS output = true := by
  constructor
  · rintro ⟨m, hm, hty⟩
    simp only [extractFromPart, List.nil_append] at hm
    split_ifs at hm with h1 h2 h3
    · exact h2
    · rw [List.append_nil] at hm
      have hme := List.mem_singleton.mp hm
      have hdec : m.type = "decision" := by rw [hme]
      rw [hdec] at hty
      exact absurd hty (by decide)
    · exact h3
    · simp at hm
  · intro hfail
    refine ⟨{ content := "Tool " ++ toolName ++ " output with errors: " ++ strTake output 1500
              type := "failure"
              scope := "project"
              tags := ["tool-failure", "auto-captured", toolName]
              source := "tool:" ++ toolName
              confidence := 0.8 }, ?_, rfl⟩
    simp only [extractFromPart, hfail, if_true, List.nil_append]
    exact List.mem_append_right _ (List.mem_singleton.mpr rfl)

/-- Witness for C8: a "Build failed" output yields a failure candidate,
while a transient-looking output mentioning only "timeout" and "multiple
matches" does not match the failure pattern at all. -/
theorem capture_failure_signal_witness :
    (∃ m ∈ extractFromPart
        (.tool "bash" (.completed none none none "Build failed with 3 problems")),
        m.type = "failure")
  ∧ regexTest FAILURE_PATTERNS "request timeout; multiple matches found" = false :=
  ⟨(capture_failure_signal "bash" none none none "Build failed with 3 problems").2
      (by decide),
   by decide⟩

set_option maxRecDepth 8000 in
/-- Counterexample to C8 as stated: a file-not-found tool output (ENOENT)
is *not* filtered out — ENOENT is itself a failure-signal keyword, so the
pipeline yields a failure candidate for it. -/
theorem capture_transient_counterexample :
    extractFromPart
        (.tool "read" (.completed none none none "ENOENT: no such file or directory"))
      = [{ content := "Tool read output with errors: ENOENT: no such file or directory"
           type := "failure"
           scope := "project"
           tags := ["tool-failure", "auto-captured", "read"]
           source := "tool:read"
           confidence := 0.8 }] := by
  rfl


/-- C5 (amended): implicit cancellation.  For a reconciliation pass over a
*non-empty* task list (an empty snapshot returns early and cancels
nothing), every persistent task previously mapped to an ephemeral id whose
counterpart no longer appears in the list, which no current task resolved
to during the pass (it is not among `seenPersistentIds`), and whose status
in the fetched persistent list is neither completed nor cancelled, receives
a status-only cancellation update; a task listed as completed is never
cancelled by this rule. -/
theorem sync_implicit_cancel_spec (idMap : List (String × String))
    (todos : List SessionTodo) (existing : Option (List PersistentTodo))
    (fresh : List (Option String)) :
    (∀ (eid pid : String) (pt : PersistentTodo), todos ≠ [] →
      (eid, pid) ∈ idMap →
      (∀ t ∈ todos, t.id ≠ eid) →
      pid ∉ (syncTodos idMap todos existing fresh).2.2 →
      lookupById (existing.getD []) pid = some pt →
      pt.status ≠ .completed → pt.status ≠ .cancelled →
      cancelOp pid ∈ (syncTodos idMap todos existing fresh).1)
  ∧ (∀ (pid : String) (pt : PersistentTodo),
      lookupById (existing.getD []) pid = some pt → pt.status = .completed →
      cancelOp pid ∉ (syncTodos idMap todos existing fresh).1) := by
  constructor
  · intro eid pid pt hne hmem hall hseen hlook hnc hncc
    rw [syncTodos_result _ _ _ _ hne] at hseen ⊢
    dsimp only at hseen ⊢
    refine List.mem_append_right _ ?_
    exact cancelPass_mem _ _ _ _ eid pid pt
      (foldl_syncStep_idMap_mem _ _ _ eid pid hmem hall) hseen hall hlook hnc hncc
  · intro pid pt hlook hcompl
    by_cases hne : todos = []
    · subst hne
      simp [syncTodos, cancelOp]
    · rw [syncTodos_result _ _ _ _ hne]
      dsimp only
      intro hmem
      rcases List.mem_append.mp hmem with hin | hin
      · rcases foldl_syncStep_ops _ _ _ _ hin with h0 | ⟨t, _, hshape⟩
        · simp [cancelOp] at h0
        · rcases hshape with ⟨pid', hupd⟩ | hcr
          · simp [cancelOp] at hupd
          · simp [cancelOp] at hcr
      · obtain ⟨pid', pt', heq, hlook', hnc, _⟩ := cancelPass_ops_shape _ _ _ _ _ hin
        have hpid : pid = pid' := by simpa [cancelOp] using heq
        subst hpid
        rw [hlook] at hlook'
        injection hlook' with h
        exact hnc (h ▸ hcompl)


/-- Witness for C5: a pending persistent task whose ephemeral counterpart
vanished (while an unrelated task is present) is cancelled. -/
theorem sync_implicit_cancel_spec_witness :
    cancelOp "p1" ∈ (syncTodos [("e1", "p1")] [⟨"e2", "Other", "pending", none⟩]
        (some [⟨"p1", "Fix", .pending, .medium⟩]) [some "pn"]).1 :=
  (sync_implicit_cancel_spec [("e1", "p1")] [⟨"e2", "Other", "pending", none⟩]
      (some [⟨"p1", "Fix", .pending, .medium⟩]) [some "pn"]).1
    "e1" "p1" ⟨"p1", "Fix", .pending, .medium⟩
    (by decide) (by decide) (by decide) (by decide) (by decide) (by decide) (by decide)

/-- Counterexample to C5 as stated ("including the empty list"): with an
empty task-list snapshot the pass returns early — the mapped, pending
persistent task p1 whose ephemeral counterpart e1 is gone is *not*
cancelled (no store operation at all is issued), and the stale mapping is
not pruned. -/
theorem sync_implicit_cancel_counterexample :
    syncTodos [("e1", "p1")] [] (some [⟨"p1", "Fix", .pending, .medium⟩]) []
      = ([], [("e1", "p1")], [])
  ∧ (⟨"p1", "Fix", TodoStatus.pending, TodoPriority.medium⟩ : PersistentTodo).status
      ≠ .completed := by
  decide

/-- C7 (amended): no *implicit-cancellation* (status-only) update ever
targets a persistent task listed as completed; however, the per-task
update step mirrors the ephemeral status, so any update that sets
`cancelled` on such a completed task carries the full field set of some
current ephemeral task whose status is cancelled (the completed →
cancelled transition can occur through that mirror path, which is what
falsifies the unrestricted claim). -/
theorem sync_completed_protection (idMap : List (String × String))
    (todos : List SessionTodo) (existing : Option (List PersistentTodo))
    (fresh : List (Option String)) :
    ∀ (pid : String) (pt : PersistentTodo),
      lookupById (existing.getD []) pid = some pt → pt.status = .completed →
      (cancelOp pid ∉ (syncTodos idMap todos existing fresh).1
       ∧ ∀ f : UpdateFields,
           StoreOp.update pid f ∈ (syncTodos idMap todos existing fresh).1 →
           f.status = some .cancelled →
           ∃ t ∈ todos, mapStatus t.status = .cancelled ∧ f.content = some t.content) := by
  intro pid pt hlook hcompl
  constructor
  · intro hmem
    by_cases hne : todos = []
    · subst hne
      simp [syncTodos] at hmem
    · rw [syncTodos_result _ _ _ _ hne] at hmem
      dsimp only at hmem
      rcases List.mem_append.mp hmem with hin | hin
      · rcases foldl_syncStep_ops _ _ _ _ hin with h0 | ⟨t, _, hshape⟩
        · simp [cancelOp] at h0
        · rcases hshape with ⟨pid', hupd⟩ | hcr
          · simp [cancelOp] at hupd
          · simp [cancelOp] at hcr
      · obtain ⟨pid', pt', heq, hlook', hnc, _⟩ := cancelPass_ops_shape _ _ _ _ _ hin
        have hpid : pid = pid' := by simpa [cancelOp] using heq
        subst hpid
        rw [hlook] at hlook'
        injection hlook' with h
        exact hnc (h ▸ hcompl)
  · intro f hf hfst
    by_cases hne : todos = []
    · subst hne
      simp [syncTodos] at hf
    · rw [syncTodos_result _ _ _ _ hne] at hf
      dsimp only at hf
      rcases List.mem_append.mp hf with hin | hin
      · rcases foldl_syncStep_ops _ _ _ _ hin with h0 | ⟨t, ht, hshape⟩
        · simp at h0
        · rcases hshape with ⟨pid', hupd⟩ | hcr
          · rw [StoreOp.update.injEq] at hupd
            obtain ⟨_, hff⟩ := hupd
            refine ⟨t, ht, ?_, ?_⟩
            · rw [hff] at hfst
              simpa using hfst
            · rw [hff]
          · simp at hcr
      · obtain ⟨pid', pt', heq, hlook', hnc, _⟩ := cancelPass_ops_shape _ _ _ _ _ hin
        have : pid = pid' ∧ f = ⟨none, some .cancelled, none⟩ := by
          simpa [cancelOp, StoreOp.update.injEq] using heq
        obtain ⟨rfl, _⟩ := this
        rw [hlook] at hlook'
        injection hlook' with h
        exact absurd (h ▸ hcompl) hnc


/-- Witness for C7: with a completed persistent task in the store and an
unrelated pending ephemeral task, no status-only cancellation is issued. -/
theorem sync_completed_protection_witness :
    cancelOp "p1" ∉ (syncTodos [] [⟨"e", "y", "pending", none⟩]
        (some [⟨"p1", "x", .completed, .high⟩]) [none]).1 :=
  (sync_completed_protection [] [⟨"e", "y", "pending", none⟩]
      (some [⟨"p1", "x", .completed, .high⟩]) [none] "p1"
      ⟨"p1", "x", .completed, .high⟩ (by decide) rfl).1

/-- Counterexample to C7 as stated: an ephemeral task with status
"cancelled" content-matches a persistent task whose stored status is
completed, and the per-task update step issues an update setting its
status to cancelled — the completed → cancelled transition does occur. -/
theorem sync_completed_counterexample :
    (syncTodos [] [⟨"e1", "x", "cancelled", some "high"⟩]
        (some [⟨"p1", "x", .completed, .high⟩]) []).1
      = [.listTodos, .update "p1" ⟨some "x", some .cancelled, some .high⟩]
  ∧ (⟨"p1", "x", TodoStatus.completed, TodoPriority.high⟩ : PersistentTodo).status
      = .completed := by
  decide

/-- C6: trimmed, lowercased content equality is the identity key.  An
ephemeral task whose normalized content equals that of the (unique such)
existing persistent task, with no id mapping yet, resolves to that task:
the pass issues no create, records the ephemeral-to-persistent mapping,
and updates the task in place exactly when status or priority differ
(whitespace/case-only renames leave the normalized content, and hence the
content-difference test, unchanged). -/
theorem sync_content_match (st : SessionTodo) (p : PersistentTodo)
    (existing : List PersistentTodo) (fresh : List (Option String))
    (h1 : p ∈ existing) (h2 : normalize p.content = normalize st.content)
    (h3 : ∀ q ∈ existing, normalize q.content = normalize st.content → q = p) :
    syncTodos [] [st] (some existing) fresh =
      (.listTodos ::
        (if p.status ≠ mapStatus st.status ∨ p.priority ≠ mapPriority st.priority
         then [.update p.id ⟨some st.content, some (mapStatus st.status),
                             some (mapPriority st.priority)⟩]
         else []),
       [(st.id, p.id)], [p.id]) := by
  have hlook := lookupByContent_eq existing p (normalize st.content) h1 h2 h3
  rw [syncTodos_result _ _ _ _ (by simp)]
  simp only [List.foldl_cons, List.foldl_nil, Option.getD_some]
  have hiff : (p.status ≠ mapStatus st.status ∨ p.priority ≠ mapPriority st.priority
      ∨ normalize p.content ≠ normalize st.content)
      ↔ (p.status ≠ mapStatus st.status ∨ p.priority ≠ mapPriority st.priority) := by
    rw [h2]
    simp
  simp only [syncStep, List.lookup_nil, hlook, mapSet, List.lookup_nil, insertSeen,
    List.not_mem_nil, if_false, List.nil_append, cancelPass, List.mem_singleton,
    if_pos rfl, hiff]
  simp [cancelPass]

/-- Witness for C6: renaming "Fix login bug" to "Fix login bug " (trailing
space) with a status change maps to the same persistent task p1 and
updates it in place — no duplicate is created. -/
theorem sync_content_match_witness :
    syncTodos [] [⟨"e1", "Fix login bug ", "in_progress", some "high"⟩]
        (some [⟨"p1", "Fix login bug", .pending, .medium⟩]) []
      = ([.listTodos,
          .update "p1" ⟨some "Fix login bug ", some .in_progress, some .high⟩],
         [("e1", "p1")], ["p1"]) := by
  have h := sync_content_match ⟨"e1", "Fix login bug ", "in_progress", some "high"⟩
      ⟨"p1", "Fix login bug", .pending, .medium⟩
      [⟨"p1", "Fix login bug", .pending, .medium⟩] []
      (by decide) (by decide) (by decide)
  rw [h]
  decide

/-- C10: a reconciliation pass over an empty task-list snapshot returns
before the `listTodos` fetch: it issues no store operation, cancels no
persistent task, and leaves the per-session id mapping untouched. -/
theorem sync_empty_frame (idMap : List (String × String))
    (existing : Option (List PersistentTodo)) (fresh : List (Option String)) :
    syncTodos idMap [] existing fresh = ([], idMap, []) := rfl

end MemoryPlugin
